import Mathlib

/-!
Verification of the whisper2 cryptographic identity and secure-session core.

The Kotlin sources (BIP39, HKDF, KeyDerivation, NaClBox, NaClSecretBox,
Signatures, CanonicalSigning, WsReconnectPolicy, WsClientImpl) are embedded
shallowly: byte arrays become `List Nat`, Kotlin strings become `List Char`,
fallible operations return `Except CryptoErr`.  External library primitives
(java PBKDF2/SHA-256/HMAC and libsodium X25519/Ed25519/XSalsa20-Poly1305)
are not part of the repository; they are collected in a `Primitives`
record, and theorems that depend on their behaviour take the relevant
library contract as an explicit hypothesis.
-/

set_option maxRecDepth 8000

/-- Bag of deterministic external crypto primitives used by the app code.
Every field models a library function (java `SecretKeyFactory`,
`MessageDigest`, `Mac`, android `Normalizer`, lazysodium).  The repository
code under verification is everything built on top of these. -/
structure Primitives where
  nfkd : List Char → List Char
  pbkdf2HmacSha512 : List Char → List Nat → Nat → Nat → List Nat
  sha256 : List Nat → List Nat
  sha256Text : List Char → List Nat
  hmacSha256 : List Nat → List Nat → List Nat
  scalarmultBase : List Nat → List Nat
  signSeedKeypair : List Nat → List Nat × List Nat
  signDetached : List Nat → List Nat → List Nat
  signVerifyDetached : List Nat → List Nat → List Nat → Bool
  cryptoBoxEasy : List Nat → List Nat → List Nat → List Nat → Option (List Nat)
  cryptoBoxOpenEasy : List Nat → List Nat → List Nat → List Nat → Option (List Nat)
  cryptoSecretBoxEasy : List Nat → List Nat → List Nat → Option (List Nat)
  cryptoSecretBoxOpenEasy : List Nat → List Nat → List Nat → Option (List Nat)

/-- ASCII bytes of a Lean string, modelling Kotlin `toByteArray(Charsets.UTF_8)`
on the ASCII constants used by the app. -/
def asciiBytes (s : String) : List Nat := s.toList.map Char.toNat

/-- Kotlin `ByteArray.copyOf(len)`: truncate or zero-pad to exactly `len`. -/
def copyOfPad (xs : List Nat) (len : Nat) : List Nat :=
  xs.take len ++ List.replicate (len - xs.length) 0

/-- One pass of Kotlin `replace(Regex("\\s+"), " ")`: the flag records whether
the previous character was whitespace (so the run is already represented). -/
def collapseAux : Bool → List Char → List Char
  | _, [] => []
  | prevWs, c :: rest =>
      if c.isWhitespace then
        if prevWs then collapseAux true rest else ' ' :: collapseAux true rest
      else c :: collapseAux false rest

/-- Kotlin `replace(Regex("\\s+"), " ")`: collapse each whitespace run to one space. -/
def collapseWs (s : List Char) : List Char := collapseAux false s

/-- Kotlin `trim()`: drop leading and trailing whitespace. -/
def trimWs (s : List Char) : List Char :=
  (((s.dropWhile Char.isWhitespace).reverse.dropWhile Char.isWhitespace)).reverse

/-- Kotlin `lowercase()` restricted to the ASCII range the word list uses. -/
def toLowerList (s : List Char) : List Char := s.map Char.toLower

/-- `String.normalizeMnemonic()` from Extensions.kt:
`normalizeNFKD().trim().replace(Regex("\\s+"), " ").lowercase()`. -/
def normalizeMnemonic (P : Primitives) (s : List Char) : List Char :=
  toLowerList (collapseWs (trimWs (P.nfkd s)))

/-- Kotlin `String.split(" ")` semantics: split on every single space,
keeping empty segments (splitting the empty string yields `[[]]`). -/
def splitOnChar (d : Char) : List Char → List (List Char)
  | [] => [[]]
  | c :: rest =>
      if c = d then [] :: splitOnChar d rest
      else
        match splitOnChar d rest with
        | w :: ws => (c :: w) :: ws
        | [] => [[c]]

/-- Kotlin `joinToString(" ")`: words separated by single spaces. -/
def joinSpace : List (List Char) → List Char
  | [] => []
  | [w] => w
  | w :: rest => w ++ ' ' :: joinSpace rest

/-- The `BIP39WordList.words` constant exactly as written in the source:
twenty rows of ten words followed by the three closing words.  The source
comment admits the list is truncated ("full list would have 2048 words"). -/
def wordStrings : List String :=
  ["abandon", "ability", "able", "about", "above", "absent", "absorb", "abstract", "absurd", "abuse",
   "access", "accident", "account", "accuse", "achieve", "acid", "acoustic", "acquire", "across", "act",
   "action", "actor", "actress", "actual", "adapt", "add", "addict", "address", "adjust", "admit",
   "adult", "advance", "advice", "aerobic", "affair", "afford", "afraid", "again", "age", "agent",
   "agree", "ahead", "aim", "air", "airport", "aisle", "alarm", "album", "alcohol", "alert",
   "alien", "all", "alley", "allow", "almost", "alone", "alpha", "already", "also", "alter",
   "always", "amateur", "amazing", "among", "amount", "amused", "analyst", "anchor", "ancient", "anger",
   "angle", "angry", "animal", "ankle", "announce", "annual", "another", "answer", "antenna", "antique",
   "anxiety", "any", "apart", "apology", "appear", "apple", "approve", "april", "arch", "arctic",
   "area", "arena", "argue", "arm", "armed", "armor", "army", "around", "arrange", "arrest",
   "arrive", "arrow", "art", "artefact", "artist", "artwork", "ask", "aspect", "assault", "asset",
   "assist", "assume", "asthma", "athlete", "atom", "attack", "attend", "attitude", "attract", "auction",
   "audit", "august", "aunt", "author", "auto", "autumn", "average", "avocado", "avoid", "awake",
   "aware", "away", "awesome", "awful", "awkward", "axis", "baby", "bachelor", "bacon", "badge",
   "bag", "balance", "balcony", "ball", "bamboo", "banana", "banner", "bar", "barely", "bargain",
   "barrel", "base", "basic", "basket", "battle", "beach", "bean", "beauty", "because", "become",
   "beef", "before", "begin", "behave", "behind", "believe", "below", "belt", "bench", "benefit",
   "best", "betray", "better", "between", "beyond", "bicycle", "bid", "bike", "bind", "biology",
   "bird", "birth", "bitter", "black", "blade", "blame", "blanket", "blast", "bleak", "bless",
   "blind", "blood", "blossom", "blouse", "blue", "blur", "blush", "board", "boat", "body",
   "zero", "zone", "zoo"]

/-- The word list as character lists, the form the validator compares against. -/
def wordList : List (List Char) := wordStrings.map String.toList

/-- `BIP39WordList.isValidWord`: membership of the lowercased word. -/
def BIP39WordList.isValidWord (w : List Char) : Bool := wordList.contains (toLowerList w)

/-- `BIP39WordList.getWord(index)`: `words[index]`, an out-of-bounds index
throws in Kotlin, modelled by `none`. -/
def BIP39WordList.getWord (i : Nat) : Option (List Char) := wordList.get? i

/-- Bits of one byte, most significant first, as built by
`Integer.toBinaryString` padded to width 8 in `entropyToMnemonic`. -/
def byteToBits (b : Nat) : List Bool :=
  [b.testBit 7, b.testBit 6, b.testBit 5, b.testBit 4,
   b.testBit 3, b.testBit 2, b.testBit 1, b.testBit 0]

/-- Value of a most-significant-first bit string (`toInt(2)` on the chunk). -/
def bitsVal (bs : List Bool) : Nat := bs.foldl (fun a b => 2 * a + (if b then 1 else 0)) 0

/-- `BIP39.entropyToMnemonic`: append `entropy.size/4` checksum bits taken
from the high bits of `sha256(entropy)[0]`, split into 11-bit chunks, map
each chunk through `BIP39WordList.getWord`, join with single spaces.  A
chunk index beyond the word list makes the whole call fail (`none`). -/
def BIP39.entropyToMnemonic (P : Primitives) (entropy : List Nat) : Option (List Char) :=
  let hash := P.sha256 entropy
  let checksumBits := entropy.length / 4
  let bits := entropy.flatMap byteToBits ++
    (List.range checksumBits).map (fun i => (hash.headD 0).testBit (7 - i))
  let idxs := (List.range (bits.length / 11)).map
    (fun i => bitsVal ((bits.drop (11 * i)).take 11))
  (idxs.mapM BIP39WordList.getWord).map joinSpace

/-- `BIP39.validateMnemonic`: normalize, split on single spaces, require 12
or 24 words, require every word to be in the canonical list.  Total. -/
def BIP39.validateMnemonic (P : Primitives) (mnemonic : List Char) : Bool :=
  let words := splitOnChar ' ' (normalizeMnemonic P mnemonic)
  if words.length ≠ 12 ∧ words.length ≠ 24 then false
  else words.all BIP39WordList.isValidWord

/-- Error taxonomy of the crypto layer (Errors.kt), plus the runtime
`NegativeArraySizeException` a short ciphertext provokes in the open paths. -/
inductive CryptoErr where
  | invalidMnemonic
  | encryptionFailure
  | decryptionFailure
  | negativeArraySize
  deriving DecidableEq, Repr

/-- `BIP39.seedFromMnemonic`: throw `InvalidMnemonicException` when validation
fails, otherwise PBKDF2-HMAC-SHA512 over the normalized phrase with salt
`"mnemonic"`, 2048 iterations, 512-bit output. -/
def BIP39.seedFromMnemonic (P : Primitives) (mnemonic : List Char) :
    Except CryptoErr (List Nat) :=
  if BIP39.validateMnemonic P mnemonic then
    .ok (P.pbkdf2HmacSha512 (normalizeMnemonic P mnemonic) (asciiBytes "mnemonic") 2048 (64 * 8))
  else .error .invalidMnemonic

/-- HKDF block chain `T(i) = HMAC-SHA256(prk, T(i-1) || info || byte(i))`
with `T(0)` empty (HKDF.kt); the counter byte is `i.toByte()`. -/
def hkdfT (P : Primitives) (prk info : List Nat) : Nat → List Nat
  | 0 => []
  | i + 1 => P.hmacSha256 prk (hkdfT P prk info i ++ info ++ [(i + 1) % 256])

/-- The `okm` buffer of `HKDF.expand`: `n` blocks, each block contributing the
32 bytes `System.arraycopy` places at offset `(i-1)*32`. -/
def hkdfOkm (P : Primitives) (prk info : List Nat) (n : Nat) : List Nat :=
  (List.range n).flatMap (fun i => (hkdfT P prk info (i + 1)).take 32)

/-- `HKDF.extract(salt, ikm) = HMAC-SHA256(key=salt, data=ikm)`. -/
def HKDF.extract (P : Primitives) (salt ikm : List Nat) : List Nat := P.hmacSha256 salt ikm

/-- `HKDF.expand(prk, info, length)`: `n = ceil(length/32)` blocks then
`okm.copyOf(length)`. -/
def HKDF.expand (P : Primitives) (prk info : List Nat) (length : Nat) : List Nat :=
  copyOfPad (hkdfOkm P prk info ((length + 31) / 32)) length

/-- `HKDF.deriveKey(ikm, salt, info, length)`: extract then expand. -/
def HKDF.deriveKey (P : Primitives) (ikm salt info : List Nat) (length : Nat) : List Nat :=
  HKDF.expand P (HKDF.extract P salt ikm) info length

/-- `KeyDerivation.DerivedKeys`. -/
structure DerivedKeys where
  encPublicKey : List Nat
  encPrivateKey : List Nat
  signPublicKey : List Nat
  signPrivateKey : List Nat
  contactsKey : List Nat
  deriving DecidableEq, Repr

/-- `KeyDerivation.deriveAllKeys`: seed from the mnemonic, three HKDF
derivations with salt `"whisper"` and the three domain info strings, the
X25519 keypair from `encSeed` used directly as the private scalar, and the
Ed25519 seeded keypair from `signSeed`. -/
def KeyDerivation.deriveAllKeys (P : Primitives) (mnemonic : List Char) :
    Except CryptoErr DerivedKeys :=
  match BIP39.seedFromMnemonic P mnemonic with
  | .error e => .error e
  | .ok seed =>
    let salt := asciiBytes "whisper"
    let encSeed := HKDF.deriveKey P seed salt (asciiBytes "whisper/enc") 32
    let signSeed := HKDF.deriveKey P seed salt (asciiBytes "whisper/sign") 32
    let contactsKey := HKDF.deriveKey P seed salt (asciiBytes "whisper/contacts") 32
    let encPub := P.scalarmultBase encSeed
    let signPair := P.signSeedKeypair signSeed
    .ok ⟨encPub, encSeed, signPair.1, signPair.2, contactsKey⟩

/-- `NaClBox.seal` / `CryptoService.boxSeal`: allocate `message.size + 16`,
run `crypto_box_easy`, throw `EncryptionException` on failure. -/
def boxSeal (P : Primitives) (message nonce recipientPublicKey senderPrivateKey : List Nat) :
    Except CryptoErr (List Nat) :=
  match P.cryptoBoxEasy message nonce recipientPublicKey senderPrivateKey with
  | some c => .ok c
  | none => .error .encryptionFailure

/-- `NaClBox.open` / `CryptoService.boxOpen`: the first statement allocates
`ByteArray(ciphertext.size - 16)`, which throws `NegativeArraySizeException`
for ciphertexts shorter than 16 bytes before libsodium is ever called;
otherwise `crypto_box_open_easy` runs and a failure becomes
`DecryptionException`. -/
def boxOpen (P : Primitives) (ciphertext nonce senderPublicKey recipientPrivateKey : List Nat) :
    Except CryptoErr (List Nat) :=
  if ciphertext.length < 16 then .error .negativeArraySize
  else
    match P.cryptoBoxOpenEasy ciphertext nonce senderPublicKey recipientPrivateKey with
    | some m => .ok m
    | none => .error .decryptionFailure

/-- `NaClSecretBox.seal` / `CryptoService.secretBoxSeal`. -/
def secretBoxSeal (P : Primitives) (message nonce key : List Nat) :
    Except CryptoErr (List Nat) :=
  match P.cryptoSecretBoxEasy message nonce key with
  | some c => .ok c
  | none => .error .encryptionFailure

/-- `NaClSecretBox.open` / `CryptoService.secretBoxOpen`: same negative
allocation for ciphertexts shorter than 16 bytes as `boxOpen`. -/
def secretBoxOpen (P : Primitives) (ciphertext nonce key : List Nat) :
    Except CryptoErr (List Nat) :=
  if ciphertext.length < 16 then .error .negativeArraySize
  else
    match P.cryptoSecretBoxOpenEasy ciphertext nonce key with
    | some m => .ok m
    | none => .error .decryptionFailure

/-- Alphabet character of a base64 sextet (Android `Base64.NO_WRAP` uses the
standard alphabet with padding and no line breaks). -/
def b64Char (i : Nat) : Char :=
  if i < 26 then Char.ofNat (65 + i)
  else if i < 52 then Char.ofNat (97 + (i - 26))
  else if i < 62 then Char.ofNat (48 + (i - 52))
  else if i = 62 then '+'
  else '/'

/-- Sextet value of a base64 alphabet character; left inverse of `b64Char`. -/
def b64Val (c : Char) : Nat :=
  if 65 ≤ c.toNat ∧ c.toNat ≤ 90 then c.toNat - 65
  else if 97 ≤ c.toNat ∧ c.toNat ≤ 122 then c.toNat - 97 + 26
  else if 48 ≤ c.toNat ∧ c.toNat ≤ 57 then c.toNat - 48 + 52
  else if c = '+' then 62
  else 63

/-- `ByteArray.encodeBase64()` (Extensions.kt): standard base64 with padding. -/
def b64Encode : List Nat → List Char
  | [] => []
  | [a] => [b64Char (a / 4), b64Char (a % 4 * 16), '=', '=']
  | [a, b] => [b64Char (a / 4), b64Char (a % 4 * 16 + b / 16), b64Char (b % 16 * 4), '=']
  | a :: b :: c :: rest =>
      b64Char (a / 4) :: b64Char (a % 4 * 16 + b / 16) ::
      b64Char (b % 16 * 4 + c / 64) :: b64Char (c % 64) :: b64Encode rest

/-- Base64 decoder used only as a left inverse witness for `b64Encode`. -/
def b64Decode : List Char → List Nat
  | x1 :: x2 :: x3 :: x4 :: rest =>
      if x3 = '=' then [b64Val x1 * 4 + b64Val x2 / 16]
      else if x4 = '=' then
        [b64Val x1 * 4 + b64Val x2 / 16, b64Val x2 % 16 * 16 + b64Val x3 / 4]
      else
        (b64Val x1 * 4 + b64Val x2 / 16) :: (b64Val x2 % 16 * 16 + b64Val x3 / 4) ::
        (b64Val x3 % 4 * 64 + b64Val x4) :: b64Decode rest
  | _ => []

/-- Decimal digit character. -/
def digitChar (n : Nat) : Char :=
  match n with
  | 0 => '0' | 1 => '1' | 2 => '2' | 3 => '3' | 4 => '4'
  | 5 => '5' | 6 => '6' | 7 => '7' | 8 => '8' | _ => '9'

/-- Fuelled decimal rendering of a natural number, most significant first. -/
def natDecAux : Nat → Nat → List Char
  | 0, _ => []
  | fuel + 1, n => if n < 10 then [digitChar n] else natDecAux fuel (n / 10) ++ [digitChar (n % 10)]

/-- Decimal rendering of a natural number. -/
def natDecimal (n : Nat) : List Char := natDecAux (n + 1) n

/-- Kotlin `"$timestamp"` for a `Long`: minus sign for negatives, decimal digits. -/
def intRepr (i : Int) : List Char :=
  if i < 0 then '-' :: natDecimal (-i).toNat else natDecimal i.toNat

/-- Decimal parser, the left inverse witnessing injectivity of `natDecimal`. -/
def parseNat (ds : List Char) : Nat := ds.foldl (fun a c => 10 * a + (c.toNat - 48)) 0

/-- One `field\n` line of the canonical signing string. -/
def fieldLine (f rest : List Char) : List Char := f ++ '\n' :: rest

/-- The canonical signing string of `CanonicalSigning`:
`"v1\n{type}\n{id}\n{from}\n{to}\n{timestamp}\n{base64(nonce)}\n{base64(ciphertext)}\n"`. -/
def canonicalChars (messageType messageId fromId toOrGroupId : List Char)
    (timestamp : Int) (nonce ciphertext : List Nat) : List Char :=
  'v' :: '1' :: '\n' ::
    fieldLine messageType (fieldLine messageId (fieldLine fromId (fieldLine toOrGroupId
      (fieldLine (intRepr timestamp)
        (fieldLine (b64Encode nonce) (fieldLine (b64Encode ciphertext) []))))))

/-- `Signatures.sign`: Ed25519 detached signature. -/
def Signatures.sign (P : Primitives) (message privateKey : List Nat) : List Nat :=
  P.signDetached message privateKey

/-- `Signatures.verify`: Ed25519 detached verification. -/
def Signatures.verify (P : Primitives) (message signature publicKey : List Nat) : Bool :=
  P.signVerifyDetached message signature publicKey

/-- `CanonicalSigning.signMessage`: SHA-256 of the canonical string, signed. -/
def CanonicalSigning.signMessage (P : Primitives)
    (messageType messageId fromId toOrGroupId : List Char) (timestamp : Int)
    (nonce ciphertext privateKey : List Nat) : List Nat :=
  Signatures.sign P
    (P.sha256Text (canonicalChars messageType messageId fromId toOrGroupId timestamp nonce ciphertext))
    privateKey

/-- `CanonicalSigning.verifyMessage`: rebuild the canonical string from the
claimed fields and verify the signature over its SHA-256 hash. -/
def CanonicalSigning.verifyMessage (P : Primitives)
    (messageType messageId fromId toOrGroupId : List Char) (timestamp : Int)
    (nonce ciphertext signature publicKey : List Nat) : Bool :=
  Signatures.verify P
    (P.sha256Text (canonicalChars messageType messageId fromId toOrGroupId timestamp nonce ciphertext))
    signature publicKey

/-- `WsConnectionState`. -/
inductive WsConnectionState where
  | DISCONNECTED
  | CONNECTING
  | CONNECTED
  | RECONNECTING
  | AUTH_EXPIRED
  deriving DecidableEq, Repr

/-- Mutable fields of `WsReconnectPolicy`. -/
structure PolicyState where
  attemptCount : Nat
  isAuthExpired : Bool
  isNetworkAvailable : Bool
  deriving DecidableEq, Repr

/-- Fresh policy: `attemptCount = 0`, not auth-expired, network available. -/
def PolicyState.fresh : PolicyState := ⟨0, false, true⟩

/-- Reconnect configuration constants from Constants.kt. -/
def RECONNECT_BASE_DELAY_MS : Int := 1000

/-- Cap on the reconnect delay from Constants.kt. -/
def RECONNECT_MAX_DELAY_MS : Int := 30000

/-- Attempt budget from Constants.kt. -/
def RECONNECT_MAX_ATTEMPTS : Nat := 5

/-- Kotlin `1 shl n` on `Int`: the shift count is masked to five bits and the
result is a signed 32-bit value, so count 31 yields the minimum integer. -/
def shlOneInt32 (n : Nat) : Int :=
  if n % 32 = 31 then -(2 ^ 31) else 2 ^ (n % 32)

/-- `WsReconnectPolicy.shouldRetry`. -/
def WsReconnectPolicy.shouldRetry (s : PolicyState) : Bool :=
  if s.isAuthExpired then false
  else if !s.isNetworkAvailable then false
  else decide (s.attemptCount < RECONNECT_MAX_ATTEMPTS)

/-- `WsReconnectPolicy.getDelayMs`: compute `base * (1 shl attemptCount)`,
increment the counter, return the delay capped by `maxDelay`. -/
def WsReconnectPolicy.getDelayMs (s : PolicyState) : Int × PolicyState :=
  let delay := RECONNECT_BASE_DELAY_MS * shlOneInt32 s.attemptCount
  (min delay RECONNECT_MAX_DELAY_MS, { s with attemptCount := s.attemptCount + 1 })

/-- `WsReconnectPolicy.reset`: zero the counter and clear the auth flag. -/
def WsReconnectPolicy.reset (s : PolicyState) : PolicyState :=
  { s with attemptCount := 0, isAuthExpired := false }

/-- `WsReconnectPolicy.markAuthExpired`. -/
def WsReconnectPolicy.markAuthExpired (s : PolicyState) : PolicyState :=
  { s with isAuthExpired := true }

/-- `WsReconnectPolicy.setNetworkAvailable`. -/
def WsReconnectPolicy.setNetworkAvailable (available : Bool) (s : PolicyState) : PolicyState :=
  let s1 := { s with isNetworkAvailable := available }
  if available && !s.isAuthExpired then { s1 with attemptCount := 0 } else s1

/-- Combined state of `WsClientImpl`: the connection-state cell and the
private reconnect policy. -/
structure ClientState where
  conn : WsConnectionState
  policy : PolicyState
  deriving DecidableEq, Repr

/-- `WsClientImpl.connect`: no-op when already connected, otherwise move to
`CONNECTING` (the socket callbacks arrive later as events). -/
def WsClientImpl.connect (s : ClientState) : ClientState :=
  if s.conn = .CONNECTED then s else { s with conn := .CONNECTING }

/-- `WsClientImpl.attemptReconnect`: consult the policy; when it permits,
move to `RECONNECTING` and issue (schedule) one backoff delay, consuming one
attempt; otherwise do nothing at all. -/
def WsClientImpl.attemptReconnect (s : ClientState) : ClientState × Option Int :=
  if WsReconnectPolicy.shouldRetry s.policy then
    ({ conn := .RECONNECTING, policy := (WsReconnectPolicy.getDelayMs s.policy).2 },
      some (WsReconnectPolicy.getDelayMs s.policy).1)
  else (s, none)

/-- `WsClientImpl.disconnect`. -/
def WsClientImpl.disconnect (s : ClientState) : ClientState :=
  { s with conn := .DISCONNECTED }

/-- `WsClientImpl.markAuthExpired`: mark the policy and set the state cell. -/
def WsClientImpl.markAuthExpired (s : ClientState) : ClientState :=
  { conn := .AUTH_EXPIRED, policy := WsReconnectPolicy.markAuthExpired s.policy }

/-- Events the transport delivers on its own, without an external call:
socket callbacks and the expiry of a scheduled reconnect delay. -/
inductive AutoEv where
  | onOpen
  | onFailure
  | onClosed
  | delayElapsed
  deriving DecidableEq, Repr

/-- One automatic step, exactly as the source handles it: the
`WebSocketListener` callbacks and the launched delay-then-connect coroutine
run without any guard on the state cell, and `markAuthExpired` neither
closes an in-flight socket nor cancels a pending timer, so every event
applies unconditionally.  `onOpen` sets `CONNECTED` and resets the policy
(clearing `isAuthExpired`); `onFailure` sets `DISCONNECTED` and consults
`attemptReconnect`; `onClosed` only sets `DISCONNECTED`; an elapsed delay
re-enters `connect()` (which early-returns only from `CONNECTED`).  Each
step returns the delay it issued, if any. -/
def WsClientImpl.stepAuto (s : ClientState) : AutoEv → ClientState × Option Int
  | .onOpen => ({ conn := .CONNECTED, policy := WsReconnectPolicy.reset s.policy }, none)
  | .onFailure => WsClientImpl.attemptReconnect { s with conn := .DISCONNECTED }
  | .onClosed => ({ s with conn := .DISCONNECTED }, none)
  | .delayElapsed => (WsClientImpl.connect s, none)

/-- Run a sequence of automatic events, collecting every issued delay. -/
def WsClientImpl.runAuto (s : ClientState) : List AutoEv → ClientState × List Int
  | [] => (s, [])
  | e :: rest =>
      let (s1, d) := WsClientImpl.stepAuto s e
      let (s2, ds) := WsClientImpl.runAuto s1 rest
      (s2, d.toList ++ ds)

/-- Concrete stand-in implementations for the external libraries, used to
instantiate contract hypotheses on explicit inputs.  `sha256Text` is the
(injective) character-code map, signing is the identity scheme whose
verifier compares the signature with the message, and the box primitives
append/check a fixed 16-byte tag. -/
def P0 : Primitives where
  nfkd := id
  pbkdf2HmacSha512 := fun _ _ _ bits => List.replicate (bits / 8) 0
  sha256 := fun _ => List.replicate 32 0
  sha256Text := fun l => l.map Char.toNat
  hmacSha256 := fun _ _ => List.replicate 32 0
  scalarmultBase := id
  signSeedKeypair := fun s => (s, s ++ s)
  signDetached := fun m _ => m
  signVerifyDetached := fun m sig _ => sig == m
  cryptoBoxEasy := fun m _ _ _ => some (m ++ List.replicate 16 7)
  cryptoBoxOpenEasy := fun c _ _ _ =>
    if c.drop (c.length - 16) == List.replicate 16 7 then some (c.take (c.length - 16)) else none
  cryptoSecretBoxEasy := fun m _ _ => some (m ++ List.replicate 16 7)
  cryptoSecretBoxOpenEasy := fun c _ _ =>
    if c.drop (c.length - 16) == List.replicate 16 7 then some (c.take (c.length - 16)) else none

/-- A twelve-word phrase made of canonical words, used to instantiate
valid-mnemonic hypotheses on a concrete input. -/
def abandon12 : List Char :=
  "abandon abandon abandon abandon abandon abandon abandon abandon abandon abandon abandon abandon".toList

/-- A canonical-list word is nonempty, contains no whitespace, and is fixed
by lowercasing; all 203 words of the source list satisfy this. -/
def goodWord (w : List Char) : Bool :=
  !w.isEmpty && w.all (fun c => !c.isWhitespace && (c.toLower = c))

theorem copyOfPad_length (xs : List Nat) (len : Nat) : (copyOfPad xs len).length = len := by
  simp [copyOfPad]
  omega

theorem copyOfPad_of_le (xs : List Nat) (len : Nat) (h : len ≤ xs.length) :
    copyOfPad xs len = xs.take len := by
  simp [copyOfPad, Nat.sub_eq_zero_of_le h]

/-- C1: The key-derivation chain is deterministic: for a fixed mnemonic the
seed and every derived key are uniquely determined (byte-for-byte equal
across invocations), the seed has 64 bytes (PBKDF2 is asked for 512 bits),
and the contacts key has 32 bytes. -/
theorem c1_keychain_deterministic (P : Primitives) (m : List Char)
    (hp : ∀ pw salt it bits, (P.pbkdf2HmacSha512 pw salt it bits).length = bits / 8) :
    (∀ s1 s2, BIP39.seedFromMnemonic P m = .ok s1 → BIP39.seedFromMnemonic P m = .ok s2 →
      s1 = s2 ∧ s1.length = 64) ∧
    (∀ k1 k2, KeyDerivation.deriveAllKeys P m = .ok k1 →
      KeyDerivation.deriveAllKeys P m = .ok k2 →
      k1 = k2 ∧ k1.contactsKey.length = 32) := by
  constructor
  · intro s1 s2 h1 h2
    rw [h1] at h2
    have hs : s1 = s2 := by cases h2; rfl
    refine ⟨hs, ?_⟩
    unfold BIP39.seedFromMnemonic at h1
    split at h1
    · cases h1
      simpa using hp (normalizeMnemonic P m) (asciiBytes "mnemonic") 2048 (64 * 8)
    · cases h1
  · intro k1 k2 h1 h2
    rw [h1] at h2
    have hk : k1 = k2 := by cases h2; rfl
    refine ⟨hk, ?_⟩
    unfold KeyDerivation.deriveAllKeys at h1
    split at h1
    · cases h1
    · cases h1
      simp [HKDF.deriveKey, HKDF.expand, copyOfPad_length]

/-- C1 witness: the deterministic chain instantiated on a concrete
twelve-word phrase with a concrete PBKDF2 implementation. -/
theorem c1_keychain_deterministic_witness :
    (∀ s1 s2, BIP39.seedFromMnemonic P0 abandon12 = .ok s1 →
      BIP39.seedFromMnemonic P0 abandon12 = .ok s2 → s1 = s2 ∧ s1.length = 64) ∧
    (∀ k1 k2, KeyDerivation.deriveAllKeys P0 abandon12 = .ok k1 →
      KeyDerivation.deriveAllKeys P0 abandon12 = .ok k2 →
      k1 = k2 ∧ k1.contactsKey.length = 32) :=
  c1_keychain_deterministic P0 abandon12 (by intro pw salt it bits; simp [P0])

/-- C4: `seedFromMnemonic` fails with `InvalidMnemonic` exactly when
`validateMnemonic` rejects the phrase, and on every validating phrase it
returns precisely the PBKDF2-HMAC-SHA512 output over the normalized phrase
with salt `"mnemonic"`, 2048 iterations, 512 bits — a 64-byte seed. -/
theorem c4_seed_from_mnemonic (P : Primitives) (m : List Char)
    (hp : ∀ pw salt it bits, (P.pbkdf2HmacSha512 pw salt it bits).length = bits / 8) :
    ((BIP39.seedFromMnemonic P m = .error .invalidMnemonic) ↔
      BIP39.validateMnemonic P m = false) ∧
    (BIP39.validateMnemonic P m = true →
      BIP39.seedFromMnemonic P m =
        .ok (P.pbkdf2HmacSha512 (normalizeMnemonic P m) (asciiBytes "mnemonic") 2048 (64 * 8)) ∧
      ∀ s, BIP39.seedFromMnemonic P m = .ok s → s.length = 64) := by
  cases h : BIP39.validateMnemonic P m
  · refine ⟨by simp [BIP39.seedFromMnemonic, h], by intro hc; cases hc⟩
  · refine ⟨by simp [BIP39.seedFromMnemonic, h], fun _ => ⟨by simp [BIP39.seedFromMnemonic, h], ?_⟩⟩
    intro s hs
    simp [BIP39.seedFromMnemonic, h] at hs
    rw [← hs]
    simpa using hp (normalizeMnemonic P m) (asciiBytes "mnemonic") 2048 (64 * 8)

/-- C4 witness: instantiated on the concrete valid phrase and concrete PBKDF2. -/
theorem c4_seed_from_mnemonic_witness :
    ((BIP39.seedFromMnemonic P0 abandon12 = .error .invalidMnemonic) ↔
      BIP39.validateMnemonic P0 abandon12 = false) ∧
    (BIP39.validateMnemonic P0 abandon12 = true →
      BIP39.seedFromMnemonic P0 abandon12 =
        .ok (P0.pbkdf2HmacSha512 (normalizeMnemonic P0 abandon12) (asciiBytes "mnemonic") 2048 (64 * 8)) ∧
      ∀ s, BIP39.seedFromMnemonic P0 abandon12 = .ok s → s.length = 64) :=
  c4_seed_from_mnemonic P0 abandon12 (by intro pw salt it bits; simp [P0])

/-- C9: for every ciphertext shorter than 16 bytes both open paths hit the
negative plaintext-buffer allocation and fail with the out-of-range error,
never with `DecryptionFailure`; for every ciphertext of at least 16 bytes
the allocation is well-defined and the only possible error is the
authentication failure. -/
theorem c9_open_short_ciphertext (P : Primitives) (c n pk sk key : List Nat) :
    (c.length < 16 →
      boxOpen P c n pk sk = .error .negativeArraySize ∧
      secretBoxOpen P c n key = .error .negativeArraySize) ∧
    (16 ≤ c.length →
      (∀ e, boxOpen P c n pk sk = .error e → e = .decryptionFailure) ∧
      (∀ e, secretBoxOpen P c n key = .error e → e = .decryptionFailure)) := by
  constructor
  · intro h
    exact ⟨by simp [boxOpen, h], by simp [secretBoxOpen, h]⟩
  · intro h
    have h' : ¬ c.length < 16 := by omega
    constructor
    · intro e he
      unfold boxOpen at he
      rw [if_neg h'] at he
      cases hpr : P.cryptoBoxOpenEasy c n pk sk <;> rw [hpr] at he
      · cases he; rfl
      · cases he
    · intro e he
      unfold secretBoxOpen at he
      rw [if_neg h'] at he
      cases hpr : P.cryptoSecretBoxOpenEasy c n key <;> rw [hpr] at he
      · cases he; rfl
      · cases he

/-- C9 witness: a 3-byte ciphertext triggers the out-of-range failure on
both open paths. -/
theorem c9_open_short_ciphertext_witness :
    boxOpen P0 [1, 2, 3] [] [] [] = .error .negativeArraySize ∧
    secretBoxOpen P0 [1, 2, 3] [] [] = .error .negativeArraySize :=
  (c9_open_short_ciphertext P0 [1, 2, 3] [] [] [] []).1 (by decide)

/-- C5: whenever the libsodium box primitive seals `m` to `c` (a ciphertext
of `m.length + 16` bytes, which the wrapper's buffer guarantees) and opens
`c` back to `m` under the matching keys — the NaCl correctness contract —
the wrappers compose to the identity: `boxOpen (boxSeal m) = m`, including
the empty message; and whenever the primitive rejects a ciphertext of legal
length, `boxOpen` fails with `DecryptionFailure` and returns no plaintext. -/
theorem c5_box_roundtrip (P : Primitives) (m n pkS skS pkR skR c : List Nat)
    (h1 : P.cryptoBoxEasy m n pkR skS = some c)
    (hlen : c.length = m.length + 16)
    (h2 : P.cryptoBoxOpenEasy c n pkS skR = some m) :
    boxSeal P m n pkR skS = .ok c ∧
    c.length = m.length + 16 ∧
    boxOpen P c n pkS skR = .ok m ∧
    (∀ c2 n2 pk2 sk2, 16 ≤ c2.length → P.cryptoBoxOpenEasy c2 n2 pk2 sk2 = none →
      boxOpen P c2 n2 pk2 sk2 = .error .decryptionFailure) := by
  refine ⟨by simp [boxSeal, h1], hlen, ?_, ?_⟩
  · have h' : ¬ c.length < 16 := by omega
    simp [boxOpen, h', h2]
  · intro c2 n2 pk2 sk2 hl hnone
    have h' : ¬ c2.length < 16 := by omega
    simp [boxOpen, h', hnone]

/-- C5 witness: the round trip on the empty message with the concrete
tag-checking box primitive. -/
theorem c5_box_roundtrip_witness :
    boxSeal P0 [] (List.replicate 24 0) (List.replicate 32 0) (List.replicate 32 0) =
      .ok (List.replicate 16 7) ∧
    (List.replicate 16 7 : List Nat).length = ([] : List Nat).length + 16 ∧
    boxOpen P0 (List.replicate 16 7) (List.replicate 24 0) (List.replicate 32 0)
      (List.replicate 32 0) = .ok [] ∧
    (∀ c2 n2 pk2 sk2, 16 ≤ c2.length → P0.cryptoBoxOpenEasy c2 n2 pk2 sk2 = none →
      boxOpen P0 c2 n2 pk2 sk2 = .error .decryptionFailure) :=
  c5_box_roundtrip P0 [] (List.replicate 24 0) (List.replicate 32 0) (List.replicate 32 0)
    (List.replicate 32 0) (List.replicate 32 0) (List.replicate 16 7)
    (by decide) (by decide) (by decide)

/-- C2: the claim needs a 2048-entry word list, but the list written in the
source has exactly 203 entries (it is explicitly truncated), so an 11-bit
chunk value such as 2047 has no word, and `entropyToMnemonic` on the
all-ones 16-byte entropy — whose first chunk is 2047 — fails instead of
producing 12 words. -/
theorem c2_wordlist_truncated :
    wordList.length = 203 ∧
    wordList.length ≠ 2048 ∧
    BIP39WordList.getWord 2047 = none ∧
    BIP39.entropyToMnemonic P0 (List.replicate 16 255) = none := by
  refine ⟨by decide, by decide, by decide, by decide⟩

theorem hkdfOkm_add (P : Primitives) (prk info : List Nat) (n k : Nat) :
    hkdfOkm P prk info (n + k) =
      hkdfOkm P prk info n ++
        ((List.range k).map (n + ·)).flatMap (fun i => (hkdfT P prk info (i + 1)).take 32) := by
  unfold hkdfOkm
  rw [List.range_add, List.flatMap_append, List.flatMap_map]

theorem hkdfOkm_length (P : Primitives) (prk info : List Nat) (n : Nat)
    (hlen : ∀ k d, (P.hmacSha256 k d).length = 32) :
    (hkdfOkm P prk info n).length = 32 * n := by
  induction n with
  | zero => simp [hkdfOkm]
  | succ n ih =>
    unfold hkdfOkm at ih ⊢
    rw [List.range_succ, List.flatMap_append]
    simp only [List.length_append, ih, List.flatMap_cons, List.flatMap_nil, List.append_nil]
    have : (hkdfT P prk info (n + 1)).length = 32 := by
      unfold hkdfT
      exact hlen _ _
    rw [List.length_take, this]
    omega

/-- C10: HKDF expand is prefix-monotone in the requested length: for
`l1 ≤ l2` (both within the HKDF bound) the shorter expansion is exactly the
`l1`-byte prefix of the longer one, for every pseudorandom key and info
string, given only that HMAC-SHA256 produces 32-byte tags. -/
theorem c10_expand_monotone (P : Primitives) (prk info : List Nat) (l1 l2 : Nat)
    (hlen : ∀ k d, (P.hmacSha256 k d).length = 32)
    (h12 : l1 ≤ l2) (_hb : l2 ≤ 255 * 32) :
    HKDF.expand P prk info l1 = (HKDF.expand P prk info l2).take l1 := by
  unfold HKDF.expand
  have hn : (l1 + 31) / 32 ≤ (l2 + 31) / 32 := by omega
  have hl1 : l1 ≤ (hkdfOkm P prk info ((l1 + 31) / 32)).length := by
    rw [hkdfOkm_length P prk info _ hlen]; omega
  have hl2 : l2 ≤ (hkdfOkm P prk info ((l2 + 31) / 32)).length := by
    rw [hkdfOkm_length P prk info _ hlen]; omega
  rw [copyOfPad_of_le _ _ hl1, copyOfPad_of_le _ _ hl2]
  rw [List.take_take, min_eq_left h12]
  obtain ⟨k, hk⟩ : ∃ k, (l2 + 31) / 32 = (l1 + 31) / 32 + k := ⟨_, (Nat.add_sub_cancel' hn).symm⟩
  rw [hk, hkdfOkm_add]
  rw [List.take_append_of_le_length hl1]

/-- C10 witness: a 5-byte expansion is the 5-byte prefix of a 40-byte
expansion under the concrete HMAC stand-in. -/
theorem c10_expand_monotone_witness :
    HKDF.expand P0 [] [] 5 = (HKDF.expand P0 [] [] 40).take 5 :=
  c10_expand_monotone P0 [] [] 5 40 (by intro k d; simp [P0]) (by decide) (by decide)

theorem shlOneInt32_small (n : Nat) (h : n < 31) : shlOneInt32 n = 2 ^ n := by
  unfold shlOneInt32
  rw [Nat.mod_eq_of_lt (by omega)]
  rw [if_neg (by omega)]

/-- C7: on each consecutive connection failure within the attempt budget,
starting from a policy with counter `n` (0-indexed, as after `n` issued
delays from a fresh or reset policy), the transport consults the policy and
issues exactly the delay `min(base * 2^n, maxDelay)` with `base = 1000` and
`maxDelay = 30000`, incrementing the counter to `n + 1`; and the next
successful open resets the counter to zero while moving to `CONNECTED`. -/
theorem c7_reconnect_delay (n : Nat) (cs : ClientState)
    (hn : n < RECONNECT_MAX_ATTEMPTS)
    (hconn : cs.conn = .CONNECTING ∨ cs.conn = .CONNECTED)
    (hpol : cs.policy = ⟨n, false, true⟩) :
    WsClientImpl.stepAuto cs .onFailure =
      ({ conn := .RECONNECTING, policy := ⟨n + 1, false, true⟩ },
        some (min (RECONNECT_BASE_DELAY_MS * 2 ^ n) RECONNECT_MAX_DELAY_MS)) ∧
    (∀ cs2 : ClientState, cs2.conn = .CONNECTING →
      WsClientImpl.stepAuto cs2 .onOpen =
        ({ conn := .CONNECTED, policy := ⟨0, false, cs2.policy.isNetworkAvailable⟩ }, none)) := by
  constructor
  · have hretry : WsReconnectPolicy.shouldRetry ⟨n, false, true⟩ = true := by
      simp [WsReconnectPolicy.shouldRetry]
      exact hn
    have hshl : shlOneInt32 n = 2 ^ n :=
      shlOneInt32_small n (by unfold RECONNECT_MAX_ATTEMPTS at hn; omega)
    simp [WsClientImpl.stepAuto, WsClientImpl.attemptReconnect, hpol, hretry,
      WsReconnectPolicy.getDelayMs, hshl]
  · intro cs2 _
    simp [WsClientImpl.stepAuto, WsReconnectPolicy.reset]

/-- C7 witness: the very first failure from a fresh policy issues
`min(1000 * 2^0, 30000) = 1000`, and a successful open resets the counter. -/
theorem c7_reconnect_delay_witness :
    WsClientImpl.stepAuto ⟨.CONNECTED, PolicyState.fresh⟩ .onFailure =
      ({ conn := .RECONNECTING, policy := ⟨1, false, true⟩ },
        some (min (RECONNECT_BASE_DELAY_MS * 2 ^ 0) RECONNECT_MAX_DELAY_MS)) ∧
    (∀ cs2 : ClientState, cs2.conn = .CONNECTING →
      WsClientImpl.stepAuto cs2 .onOpen =
        ({ conn := .CONNECTED, policy := ⟨0, false, cs2.policy.isNetworkAvailable⟩ }, none)) :=
  c7_reconnect_delay 0 ⟨.CONNECTED, PolicyState.fresh⟩ (by decide) (Or.inr rfl) rfl

/-- C8 counterexample: `markAuthExpired` cancels neither the in-flight
socket nor a pending reconnect timer, so from a client that was mid-connect
the stale `onOpen` callback still fires after auth expiry: `reset()` clears
`isAuthExpired` with no explicit re-authentication, and the next failure
issues an automatic reconnection delay (1000 ms) — refuting the claim that
after `markAuthExpired` no automatic reconnection attempt is ever issued
until re-authentication clears the flag. -/
theorem c8_auth_expiry_counterexample :
    (WsClientImpl.markAuthExpired ⟨.CONNECTING, ⟨0, false, true⟩⟩).policy.isAuthExpired
      = true ∧
    WsClientImpl.runAuto (WsClientImpl.markAuthExpired ⟨.CONNECTING, ⟨0, false, true⟩⟩)
      [.onOpen, .onFailure] =
      (⟨.RECONNECTING, ⟨1, false, true⟩⟩, [1000]) ∧
    (WsClientImpl.runAuto (WsClientImpl.markAuthExpired ⟨.CONNECTING, ⟨0, false, true⟩⟩)
      [.onOpen, .onFailure]).1.policy.isAuthExpired = false := by
  exact ⟨by decide, by decide, by decide⟩

/-- C8 amended: while the network is marked unavailable `shouldRetry` is
false and a reconnect consultation changes nothing (the attempt counter is
untouched); `markAuthExpired` moves the client to `AUTH_EXPIRED` with the
policy flag set, and for as long as the flag remains set no reconnection
attempt is issued (`attemptReconnect` is a no-op) and no automatic event
other than a socket-open clears the flag or issues a delay.  A stale
socket-open callback (from a connection attempt in flight at expiry time,
which `markAuthExpired` does not cancel) is the one automatic event that
clears the flag via `reset()` and so re-enables reconnection without
explicit re-authentication. -/
theorem c8_retry_suppression_amended (cs : ClientState) :
    (cs.policy.isNetworkAvailable = false →
      WsReconnectPolicy.shouldRetry cs.policy = false ∧
      WsClientImpl.attemptReconnect cs = (cs, none)) ∧
    ((WsClientImpl.markAuthExpired cs).conn = .AUTH_EXPIRED ∧
      (WsClientImpl.markAuthExpired cs).policy.isAuthExpired = true) ∧
    (∀ s2 : ClientState, s2.policy.isAuthExpired = true →
      WsClientImpl.attemptReconnect s2 = (s2, none) ∧
      ∀ e : AutoEv, e ≠ .onOpen →
        (WsClientImpl.stepAuto s2 e).1.policy.isAuthExpired = true ∧
        (WsClientImpl.stepAuto s2 e).2 = none) := by
  refine ⟨?_, ⟨rfl, rfl⟩, ?_⟩
  · intro h
    have hs : WsReconnectPolicy.shouldRetry cs.policy = false := by
      unfold WsReconnectPolicy.shouldRetry
      cases hae : cs.policy.isAuthExpired <;> simp [h, hae]
    exact ⟨hs, by simp [WsClientImpl.attemptReconnect, hs]⟩
  · intro s2 hs2
    have hr : WsReconnectPolicy.shouldRetry s2.policy = false := by
      unfold WsReconnectPolicy.shouldRetry
      simp [hs2]
    refine ⟨by simp [WsClientImpl.attemptReconnect, hr], ?_⟩
    intro e he
    cases e
    · exact absurd rfl he
    · constructor <;>
        simp [WsClientImpl.stepAuto, WsClientImpl.attemptReconnect, hr, hs2]
    · constructor <;> simp [WsClientImpl.stepAuto, hs2]
    · refine ⟨?_, by simp [WsClientImpl.stepAuto]⟩
      show (WsClientImpl.connect s2).policy.isAuthExpired = true
      unfold WsClientImpl.connect
      split <;> simp [hs2]

/-- C8 witness: a concrete network-down state, and a concrete auth-expired
state where a failure event issues nothing and preserves the flag. -/
theorem c8_retry_suppression_amended_witness :
    WsReconnectPolicy.shouldRetry ⟨2, false, false⟩ = false ∧
    WsClientImpl.attemptReconnect ⟨.DISCONNECTED, ⟨2, false, false⟩⟩ =
      (⟨.DISCONNECTED, ⟨2, false, false⟩⟩, none) ∧
    WsClientImpl.attemptReconnect ⟨.AUTH_EXPIRED, ⟨0, true, true⟩⟩ =
      (⟨.AUTH_EXPIRED, ⟨0, true, true⟩⟩, none) ∧
    (WsClientImpl.stepAuto ⟨.AUTH_EXPIRED, ⟨0, true, true⟩⟩ .onFailure).1.policy.isAuthExpired
      = true ∧
    (WsClientImpl.stepAuto ⟨.AUTH_EXPIRED, ⟨0, true, true⟩⟩ .onFailure).2 = none :=
  ⟨((c8_retry_suppression_amended ⟨.DISCONNECTED, ⟨2, false, false⟩⟩).1 rfl).1,
   ((c8_retry_suppression_amended ⟨.DISCONNECTED, ⟨2, false, false⟩⟩).1 rfl).2,
   ((c8_retry_suppression_amended ⟨.DISCONNECTED, ⟨2, false, false⟩⟩).2.2
      ⟨.AUTH_EXPIRED, ⟨0, true, true⟩⟩ rfl).1,
   (((c8_retry_suppression_amended ⟨.DISCONNECTED, ⟨2, false, false⟩⟩).2.2
      ⟨.AUTH_EXPIRED, ⟨0, true, true⟩⟩ rfl).2 .onFailure (by decide)).1,
   (((c8_retry_suppression_amended ⟨.DISCONNECTED, ⟨2, false, false⟩⟩).2.2
      ⟨.AUTH_EXPIRED, ⟨0, true, true⟩⟩ rfl).2 .onFailure (by decide)).2⟩

theorem wordList_good : ∀ w ∈ wordList, goodWord w = true := by decide

theorem goodWord_spec (w : List Char) (h : goodWord w = true) :
    w ≠ [] ∧ ∀ c ∈ w, c.isWhitespace = false ∧ c.toLower = c := by
  unfold goodWord at h
  rw [Bool.and_eq_true] at h
  obtain ⟨h1, h2⟩ := h
  constructor
  · intro hw
    subst hw
    simp at h1
  · intro c hc
    rw [List.all_eq_true] at h2
    have hc2 := h2 c hc
    rw [Bool.and_eq_true] at hc2
    obtain ⟨ha, hb⟩ := hc2
    refine ⟨?_, of_decide_eq_true hb⟩
    cases hcw : c.isWhitespace
    · rfl
    · rw [hcw] at ha
      cases ha

theorem splitOnChar_no_delim (d : Char) (s : List Char) (h : ∀ c ∈ s, c ≠ d) :
    splitOnChar d s = [s] := by
  induction s with
  | nil => rfl
  | cons c rest ih =>
    unfold splitOnChar
    rw [if_neg (h c (by simp))]
    rw [ih (fun x hx => h x (by simp [hx]))]

theorem splitOnChar_word (d : Char) (w t : List Char) (h : ∀ c ∈ w, c ≠ d) :
    splitOnChar d (w ++ d :: t) = w :: splitOnChar d t := by
  induction w with
  | nil =>
    simp [splitOnChar]
  | cons c w' ih =>
    have hc : c ≠ d := h c (by simp)
    have hw' : ∀ x ∈ w', x ≠ d := fun x hx => h x (by simp [hx])
    show splitOnChar d (c :: (w' ++ d :: t)) = (c :: w') :: splitOnChar d t
    simp only [splitOnChar, if_neg hc]
    rw [ih hw']

theorem splitOnChar_join (ws : List (List Char)) (hne : ws ≠ [])
    (h : ∀ w ∈ ws, ∀ c ∈ w, c ≠ ' ') :
    splitOnChar ' ' (joinSpace ws) = ws := by
  induction ws with
  | nil => exact absurd rfl hne
  | cons w rest ih =>
    cases rest with
    | nil =>
      exact splitOnChar_no_delim ' ' w (h w (by simp))
    | cons w2 rest2 =>
      show splitOnChar ' ' (w ++ ' ' :: joinSpace (w2 :: rest2)) = _
      rw [splitOnChar_word ' ' w _ (h w (by simp))]
      rw [ih (by simp) (fun x hx => h x (by simp [hx]))]

theorem collapseAux_cons_nonws (b : Bool) (c : Char) (l : List Char)
    (h : c.isWhitespace = false) : collapseAux b (c :: l) = c :: collapseAux false l := by
  simp only [collapseAux, h]
  simp

theorem collapseAux_cons_space (l : List Char) :
    collapseAux false (' ' :: l) = ' ' :: collapseAux true l := by
  simp [collapseAux]

theorem collapseAux_append (w : List Char) (hw : ∀ c ∈ w, c.isWhitespace = false) :
    ∀ b t, collapseAux b (w ++ t) = w ++ collapseAux (if w.isEmpty then b else false) t := by
  induction w with
  | nil => intro b t; rfl
  | cons c w' ih =>
    intro b t
    have hc : c.isWhitespace = false := hw c (by simp)
    rw [List.cons_append, collapseAux_cons_nonws b c (w' ++ t) hc]
    rw [ih (fun x hx => hw x (by simp [hx])) false t]
    simp

theorem collapseAux_join (ws : List (List Char)) (hne : ws ≠ [])
    (h : ∀ w ∈ ws, w ≠ [] ∧ ∀ c ∈ w, c.isWhitespace = false) :
    ∀ b, collapseAux b (joinSpace ws) = joinSpace ws := by
  induction ws with
  | nil => exact absurd rfl hne
  | cons w rest ih =>
    intro b
    obtain ⟨hwne, hwc⟩ := h w (by simp)
    have hwe : w.isEmpty = false := by simp [List.isEmpty_iff, hwne]
    cases rest with
    | nil =>
      show collapseAux b w = w
      have h2 := collapseAux_append w hwc b []
      rw [hwe] at h2
      simpa [collapseAux] using h2
    | cons w2 rest2 =>
      show collapseAux b (w ++ ' ' :: joinSpace (w2 :: rest2)) = _
      rw [collapseAux_append w hwc b (' ' :: joinSpace (w2 :: rest2))]
      rw [hwe]
      simp only [Bool.false_eq_true, if_false]
      rw [collapseAux_cons_space]
      rw [ih (by simp) (fun x hx => h x (by simp [hx])) true]
      rfl

theorem map_toLower_fix (v : List Char) (hv : ∀ c ∈ v, c.toLower = c) :
    v.map Char.toLower = v := by
  induction v with
  | nil => rfl
  | cons c v' ih => simp [hv c (by simp), ih (fun x hx => hv x (by simp [hx]))]

theorem toLower_join (ws : List (List Char))
    (h : ∀ w ∈ ws, ∀ c ∈ w, c.toLower = c) :
    toLowerList (joinSpace ws) = joinSpace ws := by
  induction ws with
  | nil => rfl
  | cons w rest ih =>
    have hw : ∀ c ∈ w, c.toLower = c := h w (by simp)
    cases rest with
    | nil => exact map_toLower_fix w hw
    | cons w2 rest2 =>
      show toLowerList (w ++ ' ' :: joinSpace (w2 :: rest2)) = _
      unfold toLowerList
      rw [List.map_append, List.map_cons]
      rw [map_toLower_fix w hw]
      have hsp : (' ' : Char).toLower = ' ' := by decide
      rw [hsp]
      have := ih (fun x hx => h x (by simp [hx]))
      unfold toLowerList at this
      rw [this]
      rfl

theorem dropWhile_eq_self_head (p : Char → Bool) (s : List Char)
    (h : ∀ c t, s = c :: t → p c = false) : s.dropWhile p = s := by
  cases s with
  | nil => rfl
  | cons c t => simp [List.dropWhile_cons, h c t rfl]

theorem joinSpace_rev_head (ws : List (List Char)) (hne : ws ≠ [])
    (h : ∀ w ∈ ws, w ≠ [] ∧ ∀ c ∈ w, c.isWhitespace = false) :
    ∃ c t, (joinSpace ws).reverse = c :: t ∧ c.isWhitespace = false := by
  induction ws with
  | nil => exact absurd rfl hne
  | cons w rest ih =>
    cases rest with
    | nil =>
      obtain ⟨hwne, hwc⟩ := h w (by simp)
      show ∃ c t, w.reverse = c :: t ∧ c.isWhitespace = false
      cases hr : w.reverse with
      | nil => exact absurd (by simpa using hr) hwne
      | cons c t =>
        refine ⟨c, t, rfl, hwc c ?_⟩
        have : c ∈ w.reverse := by rw [hr]; simp
        simpa using this
    | cons w2 rest2 =>
      obtain ⟨c, t, hct, hc⟩ := ih (by simp) (fun x hx => h x (by simp [hx]))
      refine ⟨c, t ++ (' ' :: w.reverse), ?_, hc⟩
      show (w ++ ' ' :: joinSpace (w2 :: rest2)).reverse = _
      rw [List.reverse_append, List.reverse_cons, hct]
      simp

theorem trimWs_join (ws : List (List Char)) (hne : ws ≠ [])
    (h : ∀ w ∈ ws, w ≠ [] ∧ ∀ c ∈ w, c.isWhitespace = false) :
    trimWs (joinSpace ws) = joinSpace ws := by
  unfold trimWs
  have hdrop : (joinSpace ws).dropWhile Char.isWhitespace = joinSpace ws := by
    apply dropWhile_eq_self_head
    intro c t hct
    cases ws with
    | nil => exact absurd rfl hne
    | cons w rest =>
      obtain ⟨hwne, hwc⟩ := h w (by simp)
      cases w with
      | nil => exact absurd rfl hwne
      | cons c0 w' =>
        have hc0 : c = c0 := by
          cases rest with
          | nil => cases hct; rfl
          | cons w2 rest2 =>
            have : joinSpace ((c0 :: w') :: w2 :: rest2) = c0 :: (w' ++ ' ' :: joinSpace (w2 :: rest2)) := rfl
            rw [this] at hct
            cases hct
            rfl
        rw [hc0]
        exact hwc c0 (by simp)
  rw [hdrop]
  obtain ⟨c, t, hct, hc⟩ := joinSpace_rev_head ws hne h
  rw [hct, List.dropWhile_cons, hc]
  simp only [Bool.false_eq_true, if_false]
  rw [← hct, List.reverse_reverse]

theorem validate_join (P : Primitives) (hnf : ∀ s, P.nfkd s = s)
    (ws : List (List Char)) (hlen : ws.length = 12 ∨ ws.length = 24)
    (hmem : ∀ w ∈ ws, w ∈ wordList) :
    BIP39.validateMnemonic P (joinSpace ws) = true := by
  have hne : ws ≠ [] := by
    intro hw
    rw [hw] at hlen
    simp at hlen
  have hgood : ∀ w ∈ ws, w ≠ [] ∧ ∀ c ∈ w, c.isWhitespace = false ∧ c.toLower = c :=
    fun w hw => goodWord_spec w (wordList_good w (hmem w hw))
  have hgood1 : ∀ w ∈ ws, w ≠ [] ∧ ∀ c ∈ w, c.isWhitespace = false :=
    fun w hw => ⟨(hgood w hw).1, fun c hc => ((hgood w hw).2 c hc).1⟩
  have hnorm : normalizeMnemonic P (joinSpace ws) = joinSpace ws := by
    unfold normalizeMnemonic
    rw [hnf, trimWs_join ws hne hgood1]
    show toLowerList (collapseWs (joinSpace ws)) = joinSpace ws
    unfold collapseWs
    rw [collapseAux_join ws hne hgood1 false]
    exact toLower_join ws (fun w hw c hc => ((hgood w hw).2 c hc).2)
  have hsplit : splitOnChar ' ' (joinSpace ws) = ws := by
    apply splitOnChar_join ws hne
    intro w hw c hc
    intro hcsp
    have := ((hgood w hw).2 c hc).1
    rw [hcsp] at this
    exact absurd this (by decide)
  unfold BIP39.validateMnemonic
  rw [hnorm, hsplit]
  have hword : ∀ w ∈ ws, BIP39WordList.isValidWord w = true := by
    intro w hw
    unfold BIP39WordList.isValidWord
    have hlow : toLowerList w = w := map_toLower_fix w (fun c hc => ((hgood w hw).2 c hc).2)
    rw [hlow]
    exact List.elem_eq_true_of_mem (hmem w hw)
  rcases hlen with h12 | h24
  · simp only [h12, List.all_eq_true]
    simp only [if_neg (by omega : ¬((12:Nat) ≠ 12 ∧ (12:Nat) ≠ 24))]
    rw [List.all_eq_true]
    exact hword
  · simp only [h24, List.all_eq_true]
    simp only [if_neg (by omega : ¬((24:Nat) ≠ 12 ∧ (24:Nat) ≠ 24))]
    rw [List.all_eq_true]
    exact hword

/-- C3 counterexample: `validateMnemonic` checks only the word count and
word-list membership — no checksum — so replacing the first word of a valid
twelve-word phrase by another canonical word is accepted, not rejected: the
probability that the substitution is detected is 0, not at least
`1 - 2^-checksumBits`. -/
theorem c3_substitution_counterexample :
    BIP39.validateMnemonic P0
      "abandon ability able about above absent absorb abstract absurd abuse access accident".toList
      = true ∧
    BIP39.validateMnemonic P0
      "ability ability able about above absent absorb abstract absurd abuse access accident".toList
      = true := by
  exact ⟨by decide, by decide⟩

/-- C3 amended: substituting any single word of a valid mnemonic by any
word of the canonical list never causes `validateMnemonic` to reject —
validation checks only the phrase length (12 or 24 words) and list
membership, detecting no checksum mismatch; and `validateMnemonic` is a
total boolean function (it never throws on malformed input). -/
theorem c3_substitution_always_validates (P : Primitives) (hnf : ∀ s, P.nfkd s = s)
    (ws : List (List Char)) (hlen : ws.length = 12 ∨ ws.length = 24)
    (hmem : ∀ w ∈ ws, w ∈ wordList) (i : Nat) (w2 : List Char) (hw2 : w2 ∈ wordList) :
    BIP39.validateMnemonic P (joinSpace ws) = true ∧
    BIP39.validateMnemonic P (joinSpace (ws.set i w2)) = true := by
  refine ⟨validate_join P hnf ws hlen hmem, validate_join P hnf _ ?_ ?_⟩
  · rw [List.length_set]
    exact hlen
  · intro w hw
    rcases List.mem_or_eq_of_mem_set hw with h | h
    · exact hmem w h
    · subst h
      exact hw2

/-- C3 witness: the amended statement on a concrete twelve-word phrase with
the first word replaced by `zoo`. -/
theorem c3_substitution_always_validates_witness :
    BIP39.validateMnemonic P0 (joinSpace (List.replicate 12 "abandon".toList)) = true ∧
    BIP39.validateMnemonic P0
      (joinSpace ((List.replicate 12 "abandon".toList).set 0 "zoo".toList)) = true :=
  c3_substitution_always_validates P0 (fun _ => rfl) (List.replicate 12 "abandon".toList)
    (Or.inl (by decide)) (by decide) 0 "zoo".toList (by decide)

theorem digitChar_toNat : ∀ n, n < 10 → (digitChar n).toNat = 48 + n := by decide

theorem natDecAux_digit_mem : ∀ fuel n c, c ∈ natDecAux fuel n →
    48 ≤ c.toNat ∧ c.toNat ≤ 57 := by
  intro fuel
  induction fuel with
  | zero => intro n c hc; cases hc
  | succ fuel ih =>
    intro n c hc
    unfold natDecAux at hc
    split at hc
    · rename_i h10
      rw [List.mem_singleton] at hc
      subst hc
      rw [digitChar_toNat n h10]
      omega
    · rename_i h10
      rw [List.mem_append, List.mem_singleton] at hc
      rcases hc with hc | hc
      · exact ih (n / 10) c hc
      · subst hc
        rw [digitChar_toNat (n % 10) (by omega)]
        omega

theorem parse_natDecAux : ∀ fuel n, n < fuel → parseNat (natDecAux fuel n) = n := by
  intro fuel
  induction fuel with
  | zero => intro n h; omega
  | succ fuel ih =>
    intro n h
    unfold natDecAux
    split
    · rename_i h10
      show parseNat [digitChar n] = n
      unfold parseNat
      simp [digitChar_toNat n h10]
    · rename_i h10
      unfold parseNat
      rw [List.foldl_append]
      have hrec := ih (n / 10) (by omega)
      unfold parseNat at hrec
      rw [hrec]
      simp only [List.foldl_cons, List.foldl_nil]
      rw [digitChar_toNat (n % 10) (by omega)]
      omega

theorem natDecimal_inj (a b : Nat) (h : natDecimal a = natDecimal b) : a = b := by
  have ha := parse_natDecAux (a + 1) a (by omega)
  have hb := parse_natDecAux (b + 1) b (by omega)
  unfold natDecimal at h
  rw [h] at ha
  rw [hb] at ha
  omega

theorem natDecimal_digit_mem (n : Nat) (c : Char) (hc : c ∈ natDecimal n) :
    48 ≤ c.toNat ∧ c.toNat ≤ 57 :=
  natDecAux_digit_mem (n + 1) n c hc

theorem intRepr_no_newline (i : Int) : ∀ c ∈ intRepr i, c ≠ '\n' := by
  intro c hc
  unfold intRepr at hc
  have hnl : ('\n' : Char).toNat = 10 := by decide
  have hminus : ('-' : Char).toNat = 45 := by decide
  split at hc
  · rw [List.mem_cons] at hc
    rcases hc with hc | hc
    · subst hc
      intro hx
      rw [hx] at hminus
      rw [hnl] at hminus
      omega
    · have := natDecimal_digit_mem _ c hc
      intro hx
      rw [hx, hnl] at this
      omega
  · have := natDecimal_digit_mem _ c hc
    intro hx
    rw [hx, hnl] at this
    omega

theorem natDecAux_ne_nil : ∀ fuel n, 0 < fuel → natDecAux fuel n ≠ [] := by
  intro fuel n h
  cases fuel with
  | zero => omega
  | succ fuel =>
    unfold natDecAux
    split
    · simp
    · simp

theorem intRepr_inj (i j : Int) (h : intRepr i = intRepr j) : i = j := by
  unfold intRepr at h
  have hminus : ('-' : Char).toNat = 45 := by decide
  split at h <;> split at h
  · rename_i hi hj
    rw [List.cons.injEq] at h
    have := natDecimal_inj _ _ h.2
    omega
  · rename_i hi hj
    exfalso
    have hmem : ('-' : Char) ∈ natDecimal j.toNat := by
      rw [← h]
      simp
    have := natDecimal_digit_mem _ _ hmem
    omega
  · rename_i hi hj
    exfalso
    have hmem : ('-' : Char) ∈ natDecimal i.toNat := by
      rw [h]
      simp
    have := natDecimal_digit_mem _ _ hmem
    omega
  · rename_i hi hj
    have := natDecimal_inj _ _ h
    omega

theorem b64_key : ∀ i, i < 64 →
    b64Val (b64Char i) = i ∧ b64Char i ≠ '\n' ∧ b64Char i ≠ '=' := by decide

theorem b64Encode_no_newline : ∀ bs : List Nat, (∀ x ∈ bs, x < 256) →
    ∀ ch ∈ b64Encode bs, ch ≠ '\n' := by
  intro bs
  induction bs using b64Encode.induct with
  | case1 =>
    intro _ ch hch
    cases hch
  | case2 a =>
    intro hb ch hch
    have ha : a < 256 := hb a (by simp)
    unfold b64Encode at hch
    have h1 := (b64_key (a / 4) (by omega)).2.1
    have h2 := (b64_key (a % 4 * 16) (by omega)).2.1
    have h3 : ('=' : Char) ≠ '\n' := by decide
    simp only [List.mem_cons, List.mem_singleton] at hch
    rcases hch with rfl | rfl | rfl | rfl | h
    · exact h1
    · exact h2
    · exact h3
    · exact h3
    · cases h
  | case3 a b =>
    intro hb ch hch
    have ha : a < 256 := hb a (by simp)
    have hbb : b < 256 := hb b (by simp)
    unfold b64Encode at hch
    have h1 := (b64_key (a / 4) (by omega)).2.1
    have h2 := (b64_key (a % 4 * 16 + b / 16) (by omega)).2.1
    have h3 := (b64_key (b % 16 * 4) (by omega)).2.1
    have h4 : ('=' : Char) ≠ '\n' := by decide
    simp only [List.mem_cons, List.mem_singleton] at hch
    rcases hch with rfl | rfl | rfl | rfl | h
    · exact h1
    · exact h2
    · exact h3
    · exact h4
    · cases h
  | case4 a b c rest ih =>
    intro hb ch hch
    have ha : a < 256 := hb a (by simp)
    have hbb : b < 256 := hb b (by simp)
    have hc : c < 256 := hb c (by simp)
    unfold b64Encode at hch
    have h1 := (b64_key (a / 4) (by omega)).2.1
    have h2 := (b64_key (a % 4 * 16 + b / 16) (by omega)).2.1
    have h3 := (b64_key (b % 16 * 4 + c / 64) (by omega)).2.1
    have h4 := (b64_key (c % 64) (by omega)).2.1
    simp only [List.mem_cons] at hch
    rcases hch with rfl | rfl | rfl | rfl | h
    · exact h1
    · exact h2
    · exact h3
    · exact h4
    · exact ih (fun x hx => hb x (by simp [hx])) ch h

theorem b64_decode_encode : ∀ bs : List Nat, (∀ x ∈ bs, x < 256) →
    b64Decode (b64Encode bs) = bs := by
  intro bs
  induction bs using b64Encode.induct with
  | case1 =>
    intro _
    rfl
  | case2 a =>
    intro hb
    have ha : a < 256 := hb a (by simp)
    have hv1 := (b64_key (a / 4) (by omega)).1
    have hv2 := (b64_key (a % 4 * 16) (by omega)).1
    show b64Decode [b64Char (a / 4), b64Char (a % 4 * 16), '=', '='] = [a]
    unfold b64Decode
    rw [if_pos rfl]
    rw [hv1, hv2]
    have : a / 4 * 4 + a % 4 * 16 / 16 = a := by omega
    rw [this]
  | case3 a b =>
    intro hb
    have ha : a < 256 := hb a (by simp)
    have hbb : b < 256 := hb b (by simp)
    have hv1 := (b64_key (a / 4) (by omega)).1
    have hv2 := (b64_key (a % 4 * 16 + b / 16) (by omega)).1
    have hv3 := (b64_key (b % 16 * 4) (by omega)).1
    have hne3 := (b64_key (b % 16 * 4) (by omega)).2.2
    show b64Decode [b64Char (a / 4), b64Char (a % 4 * 16 + b / 16), b64Char (b % 16 * 4), '='] = [a, b]
    unfold b64Decode
    rw [if_neg hne3, if_pos rfl]
    rw [hv1, hv2, hv3]
    have e1 : a / 4 * 4 + (a % 4 * 16 + b / 16) / 16 = a := by omega
    have e2 : (a % 4 * 16 + b / 16) % 16 * 16 + b % 16 * 4 / 4 = b := by omega
    rw [e1, e2]
  | case4 a b c rest ih =>
    intro hb
    have ha : a < 256 := hb a (by simp)
    have hbb : b < 256 := hb b (by simp)
    have hc : c < 256 := hb c (by simp)
    have hv1 := (b64_key (a / 4) (by omega)).1
    have hv2 := (b64_key (a % 4 * 16 + b / 16) (by omega)).1
    have hv3 := (b64_key (b % 16 * 4 + c / 64) (by omega)).1
    have hv4 := (b64_key (c % 64) (by omega)).1
    have hne3 := (b64_key (b % 16 * 4 + c / 64) (by omega)).2.2
    have hne4 := (b64_key (c % 64) (by omega)).2.2
    show b64Decode (b64Char (a / 4) :: b64Char (a % 4 * 16 + b / 16) ::
      b64Char (b % 16 * 4 + c / 64) :: b64Char (c % 64) :: b64Encode rest) = a :: b :: c :: rest
    unfold b64Decode
    rw [if_neg hne3, if_neg hne4]
    rw [hv1, hv2, hv3, hv4]
    have e1 : a / 4 * 4 + (a % 4 * 16 + b / 16) / 16 = a := by omega
    have e2 : (a % 4 * 16 + b / 16) % 16 * 16 + (b % 16 * 4 + c / 64) / 4 = b := by omega
    have e3 : (b % 16 * 4 + c / 64) % 4 * 64 + c % 64 = c := by omega
    rw [e1, e2, e3]
    rw [ih (fun x hx => hb x (by simp [hx]))]

theorem b64Encode_inj (x y : List Nat) (hx : ∀ v ∈ x, v < 256) (hy : ∀ v ∈ y, v < 256)
    (h : b64Encode x = b64Encode y) : x = y := by
  have h1 := b64_decode_encode x hx
  rw [h] at h1
  rw [b64_decode_encode y hy] at h1
  exact h1.symm

theorem fieldLine_inj : ∀ (a b r1 r2 : List Char), (∀ c ∈ a, c ≠ '\n') →
    (∀ c ∈ b, c ≠ '\n') → fieldLine a r1 = fieldLine b r2 → a = b ∧ r1 = r2 := by
  intro a
  induction a with
  | nil =>
    intro b r1 r2 _ hb h
    cases b with
    | nil =>
      unfold fieldLine at h
      simp at h
      exact ⟨rfl, h⟩
    | cons d b' =>
      unfold fieldLine at h
      simp only [List.nil_append, List.cons_append, List.cons.injEq] at h
      exact absurd h.1.symm (hb d (by simp))
  | cons c a' ih =>
    intro b r1 r2 ha hb h
    cases b with
    | nil =>
      unfold fieldLine at h
      simp only [List.nil_append, List.cons_append, List.cons.injEq] at h
      exact absurd h.1 (ha c (by simp))
    | cons d b' =>
      unfold fieldLine at h
      simp only [List.cons_append, List.cons.injEq] at h
      obtain ⟨hcd, htail⟩ := h
      have := ih b' r1 r2 (fun x hx => ha x (by simp [hx])) (fun x hx => hb x (by simp [hx])) htail
      exact ⟨by rw [hcd, this.1], this.2⟩

theorem canonical_inj
    (ty1 id1 fr1 to1 ty2 id2 fr2 to2 : List Char) (ts1 ts2 : Int)
    (n1 ct1 n2 ct2 : List Nat)
    (hty1 : ∀ c ∈ ty1, c ≠ '\n') (hid1 : ∀ c ∈ id1, c ≠ '\n')
    (hfr1 : ∀ c ∈ fr1, c ≠ '\n') (hto1 : ∀ c ∈ to1, c ≠ '\n')
    (hty2 : ∀ c ∈ ty2, c ≠ '\n') (hid2 : ∀ c ∈ id2, c ≠ '\n')
    (hfr2 : ∀ c ∈ fr2, c ≠ '\n') (hto2 : ∀ c ∈ to2, c ≠ '\n')
    (hn1 : ∀ v ∈ n1, v < 256) (hct1 : ∀ v ∈ ct1, v < 256)
    (hn2 : ∀ v ∈ n2, v < 256) (hct2 : ∀ v ∈ ct2, v < 256)
    (heq : canonicalChars ty1 id1 fr1 to1 ts1 n1 ct1 = canonicalChars ty2 id2 fr2 to2 ts2 n2 ct2) :
    ty1 = ty2 ∧ id1 = id2 ∧ fr1 = fr2 ∧ to1 = to2 ∧ ts1 = ts2 ∧ n1 = n2 ∧ ct1 = ct2 := by
  unfold canonicalChars at heq
  simp only [List.cons.injEq, true_and] at heq
  obtain ⟨h1, r1⟩ := fieldLine_inj _ _ _ _ hty1 hty2 heq
  obtain ⟨h2, r2⟩ := fieldLine_inj _ _ _ _ hid1 hid2 r1
  obtain ⟨h3, r3⟩ := fieldLine_inj _ _ _ _ hfr1 hfr2 r2
  obtain ⟨h4, r4⟩ := fieldLine_inj _ _ _ _ hto1 hto2 r3
  obtain ⟨h5, r5⟩ := fieldLine_inj _ _ _ _ (intRepr_no_newline ts1) (intRepr_no_newline ts2) r4
  obtain ⟨h6, r6⟩ := fieldLine_inj _ _ _ _ (b64Encode_no_newline n1 hn1) (b64Encode_no_newline n2 hn2) r5
  obtain ⟨h7, _⟩ := fieldLine_inj _ _ _ _ (b64Encode_no_newline ct1 hct1) (b64Encode_no_newline ct2 hct2) r6
  exact ⟨h1, h2, h3, h4, intRepr_inj ts1 ts2 h5,
    b64Encode_inj n1 n2 hn1 hn2 h6, b64Encode_inj ct1 ct2 hct1 hct2 h7⟩

theorem charCodes_inj : ∀ x y : List Char, x.map Char.toNat = y.map Char.toNat → x = y := by
  intro x
  induction x with
  | nil =>
    intro y h
    cases y with
    | nil => rfl
    | cons d y' => cases h
  | cons c x' ih =>
    intro y h
    cases y with
    | nil => cases h
    | cons d y' =>
      simp only [List.map_cons, List.cons.injEq] at h
      have hcd : c = d := by
        have := congrArg Char.ofNat h.1
        rwa [Char.ofNat_toNat, Char.ofNat_toNat] at this
      rw [hcd, ih y' h.2]

/-- C6 counterexample: the canonical string does not escape newlines inside
fields, so the two distinct field tuples (type `"a"`, id `"b\nc"`) and
(type `"a\nb"`, id `"c"`) canonicalize to the identical string; a signature
produced over the first tuple therefore verifies against the second, even
though the tuples differ in two fields. -/
theorem c6_newline_injection_counterexample :
    canonicalChars "a".toList "b\nc".toList "d".toList "e".toList 0 [] [] =
      canonicalChars "a\nb".toList "c".toList "d".toList "e".toList 0 [] [] ∧
    "a".toList ≠ "a\nb".toList ∧
    CanonicalSigning.verifyMessage P0 "a\nb".toList "c".toList "d".toList "e".toList 0 [] []
      (CanonicalSigning.signMessage P0 "a".toList "b\nc".toList "d".toList "e".toList 0 [] []
        (List.replicate 64 0))
      (List.replicate 32 0) = true := by
  exact ⟨by decide, by decide, by decide⟩

/-- C6 amended: provided no string field contains a newline character (the
canonical format does not escape its delimiter), and assuming the library
contracts that SHA-256 is collision-free and an Ed25519 signature verifies
only over the hash it signed, `verifyMessage` rejects whenever the claimed
seven-field tuple differs from the signed one in any field — e.g. a
timestamp off by one millisecond. -/
theorem c6_verify_binds_fields (P : Primitives)
    (hhash : ∀ x y, P.sha256Text x = P.sha256Text y → x = y)
    (hsig : ∀ m m2 sk pk, P.signVerifyDetached m2 (P.signDetached m sk) pk = true → m2 = m)
    (ty1 id1 fr1 to1 ty2 id2 fr2 to2 : List Char) (ts1 ts2 : Int)
    (n1 ct1 n2 ct2 sk pk : List Nat)
    (hty1 : ∀ c ∈ ty1, c ≠ '\n') (hid1 : ∀ c ∈ id1, c ≠ '\n')
    (hfr1 : ∀ c ∈ fr1, c ≠ '\n') (hto1 : ∀ c ∈ to1, c ≠ '\n')
    (hty2 : ∀ c ∈ ty2, c ≠ '\n') (hid2 : ∀ c ∈ id2, c ≠ '\n')
    (hfr2 : ∀ c ∈ fr2, c ≠ '\n') (hto2 : ∀ c ∈ to2, c ≠ '\n')
    (hn1 : ∀ v ∈ n1, v < 256) (hct1 : ∀ v ∈ ct1, v < 256)
    (hn2 : ∀ v ∈ n2, v < 256) (hct2 : ∀ v ∈ ct2, v < 256)
    (hne : ¬(ty1 = ty2 ∧ id1 = id2 ∧ fr1 = fr2 ∧ to1 = to2 ∧ ts1 = ts2 ∧ n1 = n2 ∧ ct1 = ct2)) :
    CanonicalSigning.verifyMessage P ty2 id2 fr2 to2 ts2 n2 ct2
      (CanonicalSigning.signMessage P ty1 id1 fr1 to1 ts1 n1 ct1 sk) pk = false := by
  cases hv : CanonicalSigning.verifyMessage P ty2 id2 fr2 to2 ts2 n2 ct2
      (CanonicalSigning.signMessage P ty1 id1 fr1 to1 ts1 n1 ct1 sk) pk
  · rfl
  · exfalso
    unfold CanonicalSigning.verifyMessage CanonicalSigning.signMessage
      Signatures.verify Signatures.sign at hv
    have h2 := hsig _ _ sk pk hv
    have h3 := hhash _ _ h2
    have hall := canonical_inj ty2 id2 fr2 to2 ty1 id1 fr1 to1 ts2 ts1 n2 ct2 n1 ct1
      hty2 hid2 hfr2 hto2 hty1 hid1 hfr1 hto1 hn2 hct2 hn1 hct1 h3
    exact hne ⟨hall.1.symm, hall.2.1.symm, hall.2.2.1.symm, hall.2.2.2.1.symm,
      hall.2.2.2.2.1.symm, hall.2.2.2.2.2.1.symm, hall.2.2.2.2.2.2.symm⟩

/-- C6 witness: with the concrete injective hash and identity-scheme
signature stand-ins, a tuple whose timestamp is one millisecond later than
the signed one fails verification. -/
theorem c6_verify_binds_fields_witness :
    CanonicalSigning.verifyMessage P0 "msg".toList "id1".toList "alice".toList "bob".toList
      1700000000001 [1, 2, 3] [4, 5]
      (CanonicalSigning.signMessage P0 "msg".toList "id1".toList "alice".toList "bob".toList
        1700000000000 [1, 2, 3] [4, 5] (List.replicate 64 0))
      (List.replicate 32 0) = false :=
  c6_verify_binds_fields P0 (fun x y h => charCodes_inj x y h)
    (fun m m2 sk pk h => (eq_of_beq h).symm)
    "msg".toList "id1".toList "alice".toList "bob".toList
    "msg".toList "id1".toList "alice".toList "bob".toList
    1700000000000 1700000000001 [1, 2, 3] [4, 5] [1, 2, 3] [4, 5]
    (List.replicate 64 0) (List.replicate 32 0)
    (by decide) (by decide) (by decide) (by decide)
    (by decide) (by decide) (by decide) (by decide)
    (by decide) (by decide) (by decide) (by decide)
    (by decide)
